import Mathlib

/-!
# A verification of the pystarlab story codec and pipeline executor

Shallow embedding of `pystarlab/starlab.py`.  A "line" is modelled as a list
of characters (the Python code iterates over decoded text lines).  The parser
`Story.from_buf` is modelled as an explicit fold over lines with the stack of
in-progress stories and the list of completed top-level stories as state;
the two runtime failures of the Python code (`IndexError` from
`story_stack[-1]` on an empty stack, and the `ValueError("No stories found
in buffer!")`) are modelled as a typed error result.
-/

namespace Pystarlab

/-- One decoded text line, as a list of characters. -/
abbrev Line := List Char

/-- A word character of the regex class `\w` used in `r"^\((\w+)"`. -/
def isWordChar (c : Char) : Bool := c.isAlphanum || c = '_'

/-- Model of `re.match(r"^\((\w+)", line)`: the line starts with `(` followed by a
nonempty run of word characters; the captured group is the maximal such run. -/
def matchOpen (line : Line) : Option (List Char) :=
  match line with
  | '(' :: rest =>
    let w := rest.takeWhile isWordChar
    if w = [] then none else some w
  | _ => none

/-- Model of `re.match(r"\)%s" % kind, line)`: since `kind` was captured by `\w+` it has
no regex metacharacters, so this is a literal prefix match of `)kind`. -/
def matchClose (kind : List Char) (line : Line) : Bool :=
  (')' :: kind).isPrefixOf line

/-- Number of `=` characters in a line; `len(re.split('=', line)) == 2`
holds exactly when this is 1. -/
def eqCount (line : Line) : Nat := line.count '='

/-- Not the `=` separator of `re.split('=', line)`. -/
def notEq (c : Char) : Bool := c != '='

/-- The part of the line before the first `=` (`re.split('=', line)[0]`). -/
def chunkBefore (line : Line) : List Char := line.takeWhile notEq

/-- The part of the line after the first `=` (`re.split('=', line)[1]` when
the split has exactly two chunks). -/
def chunkAfter (line : Line) : List Char := (line.dropWhile notEq).tail

/-- Python's `str.strip()`: drop whitespace from both ends. -/
def pyStrip (l : List Char) : List Char :=
  ((l.dropWhile Char.isWhitespace).reverse.dropWhile Char.isWhitespace).reverse

/-- Python's `str.rstrip()`: drop whitespace from the right end. -/
def pyRstrip (l : List Char) : List Char :=
  (l.reverse.dropWhile Char.isWhitespace).reverse

/-- The `Story` container: `kind`, raw lines `story_lines`, the attribute
dict `story_vals` (an insertion-ordered association list, as a Python dict),
and the nested sub-stories `story_subobjects`. -/
structure Story where
  kind : List Char
  story_lines : List Line
  story_vals : List (List Char × List Char)
  story_subobjects : List Story

/-- Model of `Story.__init__` followed by setting `kind` (lines 87-88 of the source). -/
def emptyStory (kind : List Char) : Story := ⟨kind, [], [], []⟩

/-- The distinguished kind `"Log"` for which attribute promotion is disabled. -/
def kindLog : List Char := ['L', 'o', 'g']

/-- Model of `story_vals[key] = value` on a Python dict: replace in place if the key is
present, else append at the end. -/
def dictInsert : List (List Char × List Char) → List Char → List Char →
    List (List Char × List Char)
  | [], k, v => [(k, v)]
  | (k', v') :: rest, k, v =>
    if k' = k then (k', v) :: rest else (k', v') :: dictInsert rest k v

/-- The runtime failures of `Story.from_buf`. -/
inductive BufError
  | indexError   -- `story_stack[-1]` evaluated on an empty stack
  | noStories    -- `ValueError("No stories found in buffer!")`
deriving DecidableEq, Repr

/-- One iteration of the `for line in buffered_result` loop of
`Story.from_buf` (lines 81-103).  The stack grows at the head. -/
def processLine (stack : List Story) (results : List Story) (line : Line) :
    Except BufError (List Story × List Story) :=
  match matchOpen line with
  | some w => .ok (emptyStory w :: stack, results)
  | none =>
    match stack with
    | [] => .error .indexError
    | top :: rest =>
      if matchClose top.kind line then
        match rest with
        | [] => .ok ([], results ++ [top])
        | parent :: rest' =>
          .ok ({ parent with
                 story_subobjects := parent.story_subobjects ++ [top] } :: rest',
               results)
      else if eqCount line = 1 ∧ top.kind ≠ kindLog then
        .ok ({ top with
               story_vals := dictInsert top.story_vals
                 (pyStrip (chunkBefore line)) (pyStrip (chunkAfter line)) } :: rest,
             results)
      else
        .ok ({ top with story_lines := top.story_lines ++ [line] } :: rest, results)

/-- The whole loop of `Story.from_buf` over the buffered lines. -/
def processLines : List Line → List Story → List Story →
    Except BufError (List Story × List Story)
  | [], stack, results => .ok (stack, results)
  | l :: ls, stack, results =>
    match processLine stack results l with
    | .error e => .error e
    | .ok (stack', results') => processLines ls stack' results'

/-- Model of `Story.from_buf` up to the `stories_to_return` list (lines 75-106):
run the loop from empty state and fail when no story was completed.
Stories still on the stack at the end of input are silently discarded. -/
def from_bufList (ls : List Line) : Except BufError (List Story) :=
  match processLines ls [] [] with
  | .error e => .error e
  | .ok (_, []) => .error .noStories
  | .ok (_, results) => .ok results

/-- The value `Story.from_buf` actually returns: the single story when
`stories_to_return` has one element, the whole list otherwise. -/
inductive ParseOut
  | single (s : Story)
  | many (ss : List Story)

/-- Model of `Story.from_buf` (lines 105-110): unwrap a one-element result list. -/
def from_buf (ls : List Line) : Except BufError ParseOut :=
  match from_bufList ls with
  | .error e => .error e
  | .ok [s] => .ok (.single s)
  | .ok ss => .ok (.many ss)

/-- One attribute line of `Story.__str__`: `"  %s = %s" % (key, val)`. -/
def attrLine (kv : List Char × List Char) : Line :=
  ' ' :: ' ' :: (kv.1 ++ (' ' :: '=' :: ' ' :: kv.2))

/-- The comparison used by `sorted(story_vals.items())`: keys of a dict are
unique, so comparing the pairs lexicographically is comparing the keys
(lexicographic on code points). -/
def attrKeyLE (a b : List Char × List Char) : Prop := a.1 ≤ b.1

/-- Strict version of `attrKeyLE`, for uniqueness of the sorted order. -/
def attrKeyLT (a b : List Char × List Char) : Prop := a.1 < b.1

instance : DecidableRel attrKeyLE :=
  fun a b => inferInstanceAs (Decidable (a.1 ≤ b.1))

/-- Model of `sorted(self.story_vals.items())`. -/
def sortAttrs (l : List (List Char × List Char)) : List (List Char × List Char) :=
  l.insertionSort attrKeyLE

mutual
/-- Model of `Story.__str__` (lines 43-52), at line granularity: the open marker, the
raw lines verbatim in order, the sorted attribute lines, the serialization of
every sub-story in order, and the close marker.  `__str__` itself is the
`"\n"`-join of these lines (each `+= "%s\n"` contributes one line). -/
def Story.toLines : Story → List Line
  | ⟨k, ls, vs, cs⟩ =>
    ('(' :: k) :: (ls ++ (sortAttrs vs).map attrLine ++ toLinesList cs ++ [')' :: k])

/-- The `for substory in self.story_subobjects` loop of `Story.__str__`. -/
def toLinesList : List Story → List Line
  | [] => []
  | c :: cs => Story.toLines c ++ toLinesList cs
end

/-- The exact string returned by `Story.__str__`: each emitted piece is a line
followed by a newline. -/
def Story.str (s : Story) : String :=
  String.join (s.toLines.map (fun l => String.mk l ++ "\n"))

mutual
/-- A story with its attribute dict re-sorted by key, recursively: the exact
shape a story takes after one serialize/re-parse round trip. -/
def canon : Story → Story
  | ⟨k, ls, vs, cs⟩ => ⟨k, ls, sortAttrs vs, canonList cs⟩

def canonList : List Story → List Story
  | [] => []
  | c :: cs => canon c :: canonList cs
end

theorem toLinesList_eq (cs : List Story) :
    toLinesList cs = (cs.map Story.toLines).flatten := by
  induction cs with
  | nil => rfl
  | cons c cs ih => simp [toLinesList, ih]

theorem canonList_eq (cs : List Story) : canonList cs = cs.map canon := by
  induction cs with
  | nil => rfl
  | cons c cs ih => simp [canonList, ih]

/-- Induction over a story and its sub-stories. -/
theorem Story.inductionOn {motive : Story → Prop}
    (h : ∀ k ls vs cs, (∀ c ∈ cs, motive c) → motive ⟨k, ls, vs, cs⟩) :
    ∀ s, motive s
  | ⟨k, ls, vs, cs⟩ => h k ls vs cs (fun c hc =>
      have := List.sizeOf_lt_of_mem hc
      Story.inductionOn h c)
decreasing_by
  simp only [Story.mk.sizeOf_spec]
  omega

/-! ## Stage invocation and the pipeline

The external process behind a command is opaque: a stage is modelled by the
text it emits on stdout together with its exit status (which the Python code
never inspects — `Popen` is used without any `returncode` check and without
capturing stderr). -/

/-- Model of `Story.from_single_command` (lines 138-170): collect the rstripped stdout
lines of the process and parse them.  The exit status of the process is an
input of the model; the source never reads it. -/
def from_single_command (stdout : List Line) (exitStatus : Int) :
    Except BufError ParseOut :=
  from_buf (stdout.map pyRstrip)

/-- Model of `Story.apply_command` (lines 191-224): feed `str(self)` to the command,
collect the rstripped stdout lines, parse them, and when the result is a list
insert `self` at position 0.  Exit status and stderr are never inspected. -/
def apply_command (s : Story) (stdout : List Line) (exitStatus : Int) :
    Except BufError ParseOut :=
  match from_buf (stdout.map pyRstrip) with
  | .error e => .error e
  | .ok (.single t) => .ok (.single t)
  | .ok (.many ts) => .ok (.many (s :: ts))

/-- An external command, as the function from its stdin text (absent for the
generator command) to its stdout lines and exit status. -/
def Stage : Type := Option (List Line) → List Line × Int

/-- The runtime failures of `Story.from_command_list`. -/
inductive RunError
  | popIndexError        -- `command_list.pop(0)` on an empty list
  | parseErr (e : BufError)
  | attributeError       -- `list` object has no attribute `apply_command`
deriving DecidableEq, Repr

/-- The `for command in command_list` loop of `Story.from_command_list`
(lines 187-188): `current_story = current_story.apply_command(command)`.
When `current_story` is a list (a previous stage expanded), the attribute
lookup `apply_command` raises `AttributeError` before the command's process
is ever spawned. -/
def pipelineLoop : ParseOut → List Stage → Except RunError ParseOut
  | cur, [] => .ok cur
  | .many _, _ :: _ => .error .attributeError
  | .single s, cmd :: rest =>
    let out := cmd (some s.toLines)
    match apply_command s out.1 out.2 with
    | .error e => .error (.parseErr e)
    | .ok next => pipelineLoop next rest

/-- Model of `Story.from_command_list` (lines 172-189), together with the final state
of the caller's `command_list` argument: `command_list.pop(0)` removes the
first command from the caller's list, then the loop runs over the remainder
without further mutation. -/
def from_command_list : List Stage → Except RunError ParseOut × List Stage
  | [] => (.error .popIndexError, [])
  | c :: rest =>
    let out := c none
    match from_single_command out.1 out.2 with
    | .error e => (.error (.parseErr e), rest)
    | .ok first => (pipelineLoop first rest, rest)

/-! ## Character-level facts about splitting and stripping -/

theorem takeWhile_append_of_all {p : Char → Bool} {a : List Char} (y : List Char)
    (h : ∀ c ∈ a, p c = true) : (a ++ y).takeWhile p = a ++ y.takeWhile p := by
  induction a with
  | nil => rfl
  | cons c t ih =>
    simp only [List.cons_append, List.takeWhile_cons, h c (by simp), if_true]
    rw [ih (fun c hc => h c (by simp [hc]))]

theorem dropWhile_append_of_all {p : Char → Bool} {a : List Char} (y : List Char)
    (h : ∀ c ∈ a, p c = true) : (a ++ y).dropWhile p = y.dropWhile p := by
  induction a with
  | nil => rfl
  | cons c t ih =>
    simp only [List.cons_append, List.dropWhile_cons, h c (by simp)]
    exact ih (fun c hc => h c (by simp [hc]))

theorem dropWhile_eq_nil_of_all {p : Char → Bool} {b : List Char}
    (h : ∀ c ∈ b, p c = true) : b.dropWhile p = [] := by
  have := dropWhile_append_of_all (p := p) (a := b) [] h
  simpa using this

theorem dropWhile_append_split {p : Char → Bool} (x b : List Char) :
    (x ++ b).dropWhile p =
      if x.dropWhile p = [] then b.dropWhile p else x.dropWhile p ++ b := by
  induction x with
  | nil => simp
  | cons c t ih =>
    by_cases hc : p c = true
    · simpa [List.dropWhile_cons, hc] using ih
    · simp [List.dropWhile_cons, hc]

theorem dropWhile_head_false {p : Char → Bool} {x : Char} {xs : List Char} :
    ∀ {l : List Char}, l.dropWhile p = x :: xs → p x = false := by
  intro l
  induction l with
  | nil => intro h; simp at h
  | cons c t ih =>
    intro h
    rw [List.dropWhile_cons] at h
    by_cases hc : p c = true
    · rw [if_pos hc] at h
      exact ih h
    · rw [if_neg hc] at h
      cases h
      simpa using hc

theorem pyStrip_ws_wrap {a b : List Char} (x : List Char)
    (ha : ∀ c ∈ a, c.isWhitespace = true) (hb : ∀ c ∈ b, c.isWhitespace = true) :
    pyStrip (a ++ x ++ b) = pyStrip x := by
  unfold pyStrip
  rw [List.append_assoc, dropWhile_append_of_all _ ha, dropWhile_append_split]
  by_cases hx : x.dropWhile Char.isWhitespace = []
  · rw [if_pos hx, dropWhile_eq_nil_of_all hb, hx]
  · rw [if_neg hx, List.reverse_append,
      dropWhile_append_of_all _ (fun c hc => hb c (by simpa using hc))]

theorem pyStrip_decomp (x : List Char) :
    ∃ a b, (∀ c ∈ a, c.isWhitespace = true) ∧ (∀ c ∈ b, c.isWhitespace = true) ∧
      x = a ++ pyStrip x ++ b := by
  refine ⟨x.takeWhile Char.isWhitespace,
    ((x.dropWhile Char.isWhitespace).reverse.takeWhile Char.isWhitespace).reverse,
    fun c hc => List.mem_takeWhile_imp hc,
    fun c hc => List.mem_takeWhile_imp (by simpa using hc), ?_⟩
  unfold pyStrip
  rw [List.append_assoc, ← List.reverse_append, List.takeWhile_append_dropWhile,
    List.reverse_reverse, List.takeWhile_append_dropWhile]

theorem pyStrip_idem (x : List Char) : pyStrip (pyStrip x) = pyStrip x := by
  obtain ⟨a, b, ha, hb, hx⟩ := pyStrip_decomp x
  conv_rhs => rw [hx]
  rw [pyStrip_ws_wrap _ ha hb]

theorem eqCount_pyStrip_le (l : List Char) : eqCount (pyStrip l) ≤ eqCount l := by
  unfold pyStrip eqCount
  calc ((l.dropWhile Char.isWhitespace).reverse.dropWhile Char.isWhitespace).reverse.count '='
      = ((l.dropWhile Char.isWhitespace).reverse.dropWhile Char.isWhitespace).count '=' :=
        List.count_reverse _ _
    _ ≤ (l.dropWhile Char.isWhitespace).reverse.count '=' :=
        (List.dropWhile_sublist _).count_le _
    _ = (l.dropWhile Char.isWhitespace).count '=' := List.count_reverse _ _
    _ ≤ l.count '=' := (List.dropWhile_sublist _).count_le _

theorem eqCount_chunkBefore (l : Line) : eqCount (chunkBefore l) = 0 := by
  rw [eqCount, List.count_eq_zero]
  intro hmem
  have := List.mem_takeWhile_imp hmem
  simp [notEq] at this

theorem eqCount_split (l : Line) :
    eqCount l = eqCount (chunkBefore l) + eqCount (l.dropWhile notEq) := by
  unfold eqCount chunkBefore
  rw [← List.count_append, List.takeWhile_append_dropWhile]

theorem eqCount_chunkAfter {l : Line} (h : eqCount l = 1) : eqCount (chunkAfter l) = 0 := by
  have hs := eqCount_split l
  rw [h, eqCount_chunkBefore] at hs
  match hd : l.dropWhile notEq with
  | [] => rw [hd] at hs; simp [eqCount] at hs
  | x :: t =>
    have hx : x = '=' := by
      have h2 := dropWhile_head_false (p := notEq) hd
      simpa [notEq] using h2
    rw [hd] at hs
    subst hx
    unfold chunkAfter
    rw [hd, List.tail_cons]
    simp only [eqCount, List.count_cons, beq_self_eq_true, if_true] at hs ⊢
    omega

/-! ## Facts about attribute sorting and dict insertion -/

instance : IsTotal (List Char × List Char) attrKeyLE :=
  ⟨fun a b => le_total a.1 b.1⟩

instance : IsTrans (List Char × List Char) attrKeyLE :=
  ⟨fun _ _ _ h h' => le_trans h h'⟩

instance : IsAntisymm (List Char × List Char) attrKeyLT :=
  ⟨fun _ _ h h' => absurd h' (lt_asymm h)⟩

theorem sortAttrs_perm (l : List (List Char × List Char)) : (sortAttrs l).Perm l :=
  List.perm_insertionSort _ l

theorem sortAttrs_sorted (l : List (List Char × List Char)) :
    (sortAttrs l).Sorted attrKeyLE :=
  List.sorted_insertionSort attrKeyLE l

theorem sorted_strict {l : List (List Char × List Char)}
    (hs : l.Sorted attrKeyLE) (hn : (l.map Prod.fst).Nodup) :
    l.Sorted attrKeyLT := by
  have hn' : l.Pairwise (fun a b => a.1 ≠ b.1) := List.pairwise_map.1 hn
  exact (hs.and hn').imp (fun h => lt_of_le_of_ne h.1 h.2)

theorem sortAttrs_keys_nodup {l : List (List Char × List Char)}
    (hn : (l.map Prod.fst).Nodup) : ((sortAttrs l).map Prod.fst).Nodup :=
  (((sortAttrs_perm l).map Prod.fst).symm).nodup hn

theorem sortAttrs_eq_of_perm {v₁ v₂ : List (List Char × List Char)}
    (hp : v₁.Perm v₂) (hn : (v₁.map Prod.fst).Nodup) :
    sortAttrs v₁ = sortAttrs v₂ := by
  have hn₂ : (v₂.map Prod.fst).Nodup := (hp.map Prod.fst).nodup hn
  exact List.eq_of_perm_of_sorted (r := attrKeyLT)
    ((sortAttrs_perm v₁).trans (hp.trans (sortAttrs_perm v₂).symm))
    (sorted_strict (sortAttrs_sorted v₁) (sortAttrs_keys_nodup hn))
    (sorted_strict (sortAttrs_sorted v₂) (sortAttrs_keys_nodup hn₂))

theorem sortAttrs_idem (l : List (List Char × List Char)) :
    sortAttrs (sortAttrs l) = sortAttrs l :=
  List.Sorted.insertionSort_eq (sortAttrs_sorted l)

theorem dictInsert_of_not_mem {d : List (List Char × List Char)}
    {k : List Char} (v : List Char) (h : k ∉ d.map Prod.fst) :
    dictInsert d k v = d ++ [(k, v)] := by
  induction d with
  | nil => rfl
  | cons kv t ih =>
    simp only [List.map_cons, List.mem_cons, not_or] at h
    rw [dictInsert, if_neg (fun he => h.1 he.symm), ih h.2, List.cons_append]

theorem mem_dictInsert {d : List (List Char × List Char)}
    {k v : List Char} {kv : List Char × List Char}
    (h : kv ∈ dictInsert d k v) : kv ∈ d ∨ kv = (k, v) := by
  induction d with
  | nil => simpa [dictInsert] using h
  | cons kv' t ih =>
    rw [dictInsert] at h
    by_cases he : kv'.1 = k
    · rw [if_pos he] at h
      rcases List.mem_cons.1 h with h | h
      · right; rw [h, he]
      · left; exact List.mem_cons_of_mem _ h
    · rw [if_neg he] at h
      rcases List.mem_cons.1 h with h | h
      · left; simp [h]
      · rcases ih h with h | h
        · left; exact List.mem_cons_of_mem _ h
        · right; exact h

theorem dictInsert_keys (d : List (List Char × List Char)) (k v : List Char) :
    (dictInsert d k v).map Prod.fst =
      if k ∈ d.map Prod.fst then d.map Prod.fst else d.map Prod.fst ++ [k] := by
  induction d with
  | nil => rfl
  | cons kv t ih =>
    by_cases he : kv.1 = k
    · simp [dictInsert, he]
    · simp only [dictInsert, if_neg he, List.map_cons, ih]
      by_cases hm : k ∈ t.map Prod.fst
      · simp [hm, Ne.symm he]
      · simp [hm, Ne.symm he]

theorem dictInsert_keys_nodup {d : List (List Char × List Char)}
    (hn : (d.map Prod.fst).Nodup) (k v : List Char) :
    ((dictInsert d k v).map Prod.fst).Nodup := by
  rw [dictInsert_keys]
  by_cases hm : k ∈ d.map Prod.fst
  · rwa [if_pos hm]
  · rw [if_neg hm, List.nodup_append]
    exact ⟨hn, List.nodup_singleton k, by simpa using hm⟩

/-- Folding Python's `d[k] = v` over a list of pairs with pairwise-distinct
keys, starting from the empty dict, rebuilds exactly that list. -/
theorem foldl_dictInsert_eq {avs : List (List Char × List Char)}
    (hn : (avs.map Prod.fst).Nodup) :
    ∀ acc, (∀ kv ∈ avs, kv.1 ∉ acc.map Prod.fst) →
      avs.foldl (fun d kv => dictInsert d kv.1 kv.2) acc = acc ++ avs := by
  induction avs with
  | nil => intro acc _; simp
  | cons kv t ih =>
    intro acc hf
    simp only [List.map_cons, List.nodup_cons] at hn
    rw [List.foldl_cons, dictInsert_of_not_mem kv.2 (hf kv (by simp)),
      ih hn.2 _ ?_]
    · simp
    · intro kv' hkv'
      simp only [List.map_append, List.mem_append, List.map_cons, List.map_nil]
      rintro (h | h)
      · exact hf kv' (List.mem_cons_of_mem _ hkv') h
      · simp only [List.mem_singleton] at h
        exact hn.1 (h ▸ (List.mem_map_of_mem Prod.fst hkv'))

/-! ## Facts about the open and close patterns -/

theorem matchOpen_eq_some {l : Line} {w : List Char} (h : matchOpen l = some w) :
    w ≠ [] ∧ ∀ c ∈ w, isWordChar c = true := by
  match l with
  | [] => simp [matchOpen] at h
  | c :: rest =>
    by_cases hc : c = '('
    · subst hc
      rw [matchOpen] at h
      by_cases he : rest.takeWhile isWordChar = []
      · rw [if_pos he] at h; cases h
      · rw [if_neg he] at h
        cases h
        exact ⟨he, fun c hc => List.mem_takeWhile_imp hc⟩
    · rw [show matchOpen (c :: rest) = none by
        rw [matchOpen.eq_def]
        split
        · next heq => rw [List.cons.injEq] at heq; exact absurd heq.1 hc
        · rfl] at h
      cases h

theorem matchOpen_open {k : List Char} (h₁ : k ≠ [])
    (h₂ : ∀ c ∈ k, isWordChar c = true) : matchOpen ('(' :: k) = some k := by
  rw [matchOpen]
  have : k.takeWhile isWordChar = k := by
    have := takeWhile_append_of_all (p := isWordChar) (a := k) [] h₂
    simpa using this
  rw [this, if_neg h₁]

theorem matchOpen_of_head {c : Char} (rest : Line) (h : c ≠ '(') :
    matchOpen (c :: rest) = none := by
  rw [matchOpen.eq_def]
  split
  · next heq => rw [List.cons.injEq] at heq; exact absurd heq.1 h
  · rfl

theorem matchClose_of_head {k : List Char} {c : Char} (rest : Line) (h : c ≠ ')') :
    matchClose k (c :: rest) = false := by
  rw [matchClose, List.isPrefixOf]
  simp [h.symm]

theorem matchClose_self (k : List Char) : matchClose k (')' :: k) = true := by
  rw [matchClose, List.isPrefixOf_iff_prefix]

/-! ## Facts about attribute lines -/

theorem matchOpen_attrLine (kv : List Char × List Char) :
    matchOpen (attrLine kv) = none :=
  matchOpen_of_head _ (by decide)

theorem matchClose_attrLine (k : List Char) (kv : List Char × List Char) :
    matchClose k (attrLine kv) = false :=
  matchClose_of_head _ (by decide)

/-- Well-formedness of a stored attribute: key and value are stripped and
free of `=` (they came out of a two-chunk split). -/
def WFattr (kv : List Char × List Char) : Prop :=
  eqCount kv.1 = 0 ∧ eqCount kv.2 = 0 ∧ pyStrip kv.1 = kv.1 ∧ pyStrip kv.2 = kv.2

theorem eqCount_attrLine {kv : List Char × List Char} (h : WFattr kv) :
    eqCount (attrLine kv) = 1 := by
  obtain ⟨h1, h2, -, -⟩ := h
  unfold eqCount at h1 h2 ⊢
  simp [attrLine, List.count_cons, List.count_append, h1, h2]

theorem chunkBefore_attrLine {kv : List Char × List Char} (h : eqCount kv.1 = 0) :
    chunkBefore (attrLine kv) = ' ' :: ' ' :: (kv.1 ++ [' ']) := by
  have hall : ∀ c ∈ kv.1, notEq c = true := by
    intro c hc
    have : c ≠ '=' := fun he => by
      rw [eqCount, List.count_eq_zero] at h
      exact h (he ▸ hc)
    simp [notEq, this]
  unfold chunkBefore attrLine
  rw [List.takeWhile_cons, List.takeWhile_cons]
  norm_num [notEq]
  rw [takeWhile_append_of_all _ hall]
  rfl

theorem chunkAfter_attrLine {kv : List Char × List Char} (h : eqCount kv.1 = 0) :
    chunkAfter (attrLine kv) = ' ' :: kv.2 := by
  have hall : ∀ c ∈ kv.1, notEq c = true := by
    intro c hc
    have : c ≠ '=' := fun he => by
      rw [eqCount, List.count_eq_zero] at h
      exact h (he ▸ hc)
    simp [notEq, this]
  unfold chunkAfter attrLine
  rw [List.dropWhile_cons, List.dropWhile_cons]
  norm_num [notEq]
  rw [dropWhile_append_of_all _ hall]
  rfl

theorem pyStrip_attrKey {k : List Char} (h : pyStrip k = k) :
    pyStrip (' ' :: ' ' :: (k ++ [' '])) = k := by
  have := pyStrip_ws_wrap (a := [' ', ' ']) (b := [' ']) k
    (by decide) (by decide)
  rw [show (' ' :: ' ' :: (k ++ [' '])) = [' ', ' '] ++ k ++ [' '] by simp] at *
  rw [this, h]

theorem pyStrip_attrVal {v : List Char} (h : pyStrip v = v) :
    pyStrip (' ' :: v) = v := by
  have := pyStrip_ws_wrap (a := [' ']) (b := []) v (by decide) (by decide)
  rw [show (' ' :: v) = [' '] ++ v ++ [] by simp] at *
  rw [this, h]

/-! ## Well-formedness of parsed stories -/

/-- A kind captured by the open pattern: a nonempty run of word characters. -/
def WFkind (k : List Char) : Prop := k ≠ [] ∧ ∀ c ∈ k, isWordChar c = true

/-- A line stored in `story_lines` of a node of kind `k`: it failed the open
pattern, failed the close check against `k`, and (for non-Log nodes) was not
a two-chunk `=` split. -/
def WFline (k : List Char) (l : Line) : Prop :=
  matchOpen l = none ∧ matchClose k l = false ∧ (k ≠ kindLog → eqCount l ≠ 1)

/-- Every invariant the parser maintains for the stories it builds. -/
inductive Story.WF : Story → Prop
  | mk {k : List Char} {ls : List Line} {vs : List (List Char × List Char)}
      {cs : List Story} :
      WFkind k →
      (∀ l ∈ ls, WFline k l) →
      (∀ kv ∈ vs, WFattr kv) →
      (vs.map Prod.fst).Nodup →
      (k = kindLog → vs = []) →
      (∀ c ∈ cs, Story.WF c) →
      Story.WF ⟨k, ls, vs, cs⟩

theorem processLine_WF {stack results : List Story} {l : Line}
    {stack' results' : List Story}
    (hs : ∀ s ∈ stack, s.WF) (hr : ∀ s ∈ results, s.WF)
    (h : processLine stack results l = .ok (stack', results')) :
    (∀ s ∈ stack', s.WF) ∧ (∀ s ∈ results', s.WF) := by
  rw [processLine.eq_def] at h
  match ho : matchOpen l with
  | some w =>
    rw [ho] at h
    cases h
    refine ⟨?_, hr⟩
    intro s hmem
    rcases List.mem_cons.1 hmem with rfl | hmem
    · obtain ⟨hne, hword⟩ := matchOpen_eq_some ho
      exact Story.WF.mk ⟨hne, hword⟩ (by simp) (by simp) (by simp)
        (fun _ => rfl) (by simp)
    · exact hs s hmem
  | none =>
    rw [ho] at h
    match stack with
    | [] => cases h
    | top :: rest =>
      simp only at h
      have htop := hs top (by simp)
      by_cases hcl : matchClose top.kind l = true
      · rw [if_pos hcl] at h
        match rest with
        | [] =>
          cases h
          refine ⟨by simp, ?_⟩
          intro s hmem
          rcases List.mem_append.1 hmem with hmem | hmem
          · exact hr s hmem
          · rw [List.mem_singleton.1 hmem]; exact htop
        | parent :: rest' =>
          cases h
          refine ⟨?_, hr⟩
          intro s hmem
          rcases List.mem_cons.1 hmem with rfl | hmem
          · have hp := hs parent (by simp)
            cases hp with
            | mk h1 h2 h3 h4 h5 h6 =>
              refine Story.WF.mk h1 h2 h3 h4 h5 ?_
              intro c hc
              rcases List.mem_append.1 hc with hc | hc
              · exact h6 c hc
              · rw [List.mem_singleton.1 hc]; exact htop
          · exact hs s (List.mem_cons_of_mem _ (List.mem_cons_of_mem _ hmem))
      · rw [if_neg hcl] at h
        by_cases hattr : eqCount l = 1 ∧ top.kind ≠ kindLog
        · rw [if_pos hattr] at h
          cases h
          refine ⟨?_, hr⟩
          intro s hmem
          rcases List.mem_cons.1 hmem with rfl | hmem
          · cases htop with
            | mk h1 h2 h3 h4 h5 h6 =>
              refine Story.WF.mk h1 h2 ?_ (dictInsert_keys_nodup h4 _ _)
                (fun hk => absurd hk hattr.2) h6
              intro kv hkv
              rcases mem_dictInsert hkv with hkv | hkv
              · exact h3 kv hkv
              · subst hkv
                refine ⟨?_, ?_, pyStrip_idem _, pyStrip_idem _⟩
                · exact Nat.le_zero.1 (eqCount_chunkBefore l ▸ eqCount_pyStrip_le _)
                · exact Nat.le_zero.1 (eqCount_chunkAfter hattr.1 ▸ eqCount_pyStrip_le _)
          · exact hs s (List.mem_cons_of_mem _ hmem)
        · rw [if_neg hattr] at h
          cases h
          refine ⟨?_, hr⟩
          intro s hmem
          rcases List.mem_cons.1 hmem with rfl | hmem
          · cases htop with
            | mk h1 h2 h3 h4 h5 h6 =>
              refine Story.WF.mk h1 ?_ h3 h4 h5 h6
              intro li hli
              rcases List.mem_append.1 hli with hli | hli
              · exact h2 li hli
              · rw [List.mem_singleton.1 hli]
                refine ⟨ho, Bool.not_eq_true _ ▸ hcl, fun hlog h1eq => ?_⟩
                exact hattr ⟨h1eq, hlog⟩
          · exact hs s (List.mem_cons_of_mem _ hmem)

theorem processLines_WF :
    ∀ {ls : List Line} {stack results stack' results' : List Story},
    (∀ s ∈ stack, s.WF) → (∀ s ∈ results, s.WF) →
    processLines ls stack results = .ok (stack', results') →
    (∀ s ∈ stack', s.WF) ∧ (∀ s ∈ results', s.WF) := by
  intro ls
  induction ls with
  | nil =>
    intro stack results stack' results' hs hr h
    rw [processLines] at h
    cases h
    exact ⟨hs, hr⟩
  | cons l t ih =>
    intro stack results stack' results' hs hr h
    rw [processLines] at h
    match hp : processLine stack results l with
    | .error e => rw [hp] at h; cases h
    | .ok (st₁, r₁) =>
      rw [hp] at h
      obtain ⟨hs₁, hr₁⟩ := processLine_WF hs hr hp
      exact ih hs₁ hr₁ h

/-- Every story in a successful parse result is well-formed. -/
theorem from_bufList_WF {ls : List Line} {out : List Story}
    (h : from_bufList ls = .ok out) : ∀ s ∈ out, s.WF := by
  rw [from_bufList] at h
  match hp : processLines ls [] [] with
  | .error e => rw [hp] at h; cases h
  | .ok (st, res) =>
    rw [hp] at h
    match res with
    | [] => simp at h
    | r :: rs =>
      simp only at h
      cases h
      exact (processLines_WF (by simp) (by simp) hp).2

/-! ## Re-parsing a serialized story -/

/-- What popping a completed story does to the parser state: attach it as the
last child of the new top of stack, or emit it as a top-level result. -/
def attachResult (c : Story) : List Story → List Story → List Story × List Story
  | [], res => ([], res ++ [c])
  | t :: st, res => ({ t with story_subobjects := t.story_subobjects ++ [c] } :: st, res)

theorem step_open {k : List Char} (stack res : List Story) (hk : WFkind k) :
    processLine stack res ('(' :: k) = .ok (emptyStory k :: stack, res) := by
  rw [processLine.eq_def, matchOpen_open hk.1 hk.2]

theorem step_content {t : Story} {l : Line} (stack res : List Story)
    (h : WFline t.kind l) :
    processLine (t :: stack) res l =
      .ok ({ t with story_lines := t.story_lines ++ [l] } :: stack, res) := by
  rw [processLine.eq_def, h.1]
  simp only
  rw [if_neg (by simp [h.2.1]), if_neg (fun hc => h.2.2 hc.2 hc.1)]

theorem step_attr {t : Story} {kv : List Char × List Char} (stack res : List Story)
    (hkv : WFattr kv) (hk : t.kind ≠ kindLog) :
    processLine (t :: stack) res (attrLine kv) =
      .ok ({ t with story_vals := dictInsert t.story_vals kv.1 kv.2 } :: stack, res) := by
  rw [processLine.eq_def, matchOpen_attrLine]
  simp only
  rw [if_neg (by simp [matchClose_attrLine]), if_pos ⟨eqCount_attrLine hkv, hk⟩,
    chunkBefore_attrLine hkv.1, chunkAfter_attrLine hkv.1,
    pyStrip_attrKey hkv.2.2.1, pyStrip_attrVal hkv.2.2.2]

theorem step_close {t : Story} {l : Line} (stack res : List Story)
    (ho : matchOpen l = none) (hcl : matchClose t.kind l = true) :
    processLine (t :: stack) res l = .ok (attachResult t stack res) := by
  rw [processLine.eq_def, ho]
  simp only
  rw [if_pos hcl]
  match stack with
  | [] => rfl
  | parent :: rest' => rfl

theorem processLines_cons_ok {stack res : List Story} {l : Line}
    {st' r' : List Story} (h : processLine stack res l = .ok (st', r'))
    (ls : List Line) : processLines (l :: ls) stack res = processLines ls st' r' := by
  rw [processLines, h]

theorem processLines_content {k : List Char} {ls : List Line}
    (h : ∀ l ∈ ls, WFline k l) :
    ∀ (ls₀ : List Line) vs cs stack res rest,
      processLines (ls ++ rest) (⟨k, ls₀, vs, cs⟩ :: stack) res =
        processLines rest (⟨k, ls₀ ++ ls, vs, cs⟩ :: stack) res := by
  induction ls with
  | nil => intro ls₀ vs cs stack res rest; simp
  | cons l tl ih =>
    intro ls₀ vs cs stack res rest
    rw [List.cons_append,
      processLines_cons_ok (step_content _ _ (h l (by simp))) _,
      ih (fun l hl => h l (by simp [hl])) (ls₀ ++ [l])]
    simp [List.append_assoc]

theorem processLines_attrs {k : List Char} (hk : k ≠ kindLog)
    {avs : List (List Char × List Char)} (h : ∀ kv ∈ avs, WFattr kv) :
    ∀ (vs₀ : List (List Char × List Char)) ls₀ cs stack res rest,
      processLines (avs.map attrLine ++ rest) (⟨k, ls₀, vs₀, cs⟩ :: stack) res =
        processLines rest
          (⟨k, ls₀, avs.foldl (fun d kv => dictInsert d kv.1 kv.2) vs₀, cs⟩ :: stack)
          res := by
  induction avs with
  | nil => intro vs₀ ls₀ cs stack res rest; simp
  | cons kv tl ih =>
    intro vs₀ ls₀ cs stack res rest
    rw [List.map_cons, List.cons_append,
      processLines_cons_ok (step_attr _ _ (h kv (by simp)) hk) _,
      ih (fun kv hkv => h kv (by simp [hkv]))]
    rfl

theorem processLines_childList {cs : List Story}
    (IH : ∀ c ∈ cs, c.WF → ∀ rest stack res,
      processLines (c.toLines ++ rest) stack res =
        processLines rest (attachResult (canon c) stack res).1
          (attachResult (canon c) stack res).2)
    (hcs : ∀ c ∈ cs, c.WF) :
    ∀ (k : List Char) ls₀ vs₀ cs₀ stack res rest,
      processLines (toLinesList cs ++ rest) (⟨k, ls₀, vs₀, cs₀⟩ :: stack) res =
        processLines rest (⟨k, ls₀, vs₀, cs₀ ++ canonList cs⟩ :: stack) res := by
  induction cs with
  | nil => intro k ls₀ vs₀ cs₀ stack res rest; simp [toLinesList, canonList]
  | cons c tl ih =>
    intro k ls₀ vs₀ cs₀ stack res rest
    rw [toLinesList, List.append_assoc, IH c (by simp) (hcs c (by simp)) _ _ _]
    simp only [attachResult]
    rw [ih (fun c hc => IH c (by simp [hc])) (fun c hc => hcs c (by simp [hc]))]
    simp [canonList, List.append_assoc]

/-- Running the parser over the serialization of a well-formed story, from any
state, completes exactly one story: the canonical (attribute-sorted) form of
the original, attached to the current state. -/
theorem reparse_toLines : ∀ (s : Story), s.WF → ∀ rest stack res,
    processLines (s.toLines ++ rest) stack res =
      processLines rest (attachResult (canon s) stack res).1
        (attachResult (canon s) stack res).2 := by
  refine Story.inductionOn ?_
  intro k ls vs cs IH hwf rest stack res
  cases hwf with
  | mk h1 h2 h3 h4 h5 h6 =>
    rw [Story.toLines, List.cons_append,
      processLines_cons_ok (step_open stack res h1) _]
    rw [show emptyStory k = ⟨k, [], [], []⟩ from rfl]
    simp only [List.append_assoc]
    rw [processLines_content h2 [] [] [] stack res _]
    have hattrs : ∀ kv ∈ sortAttrs vs, WFattr kv :=
      fun kv hkv => h3 kv ((sortAttrs_perm vs).subset hkv)
    by_cases hk : k = kindLog
    · rw [h5 hk]
      rw [show sortAttrs [] = [] from rfl]
      rw [List.map_nil, List.nil_append,
        processLines_childList IH h6 k ([] ++ ls) [] [] stack res _,
        List.singleton_append,
        processLines_cons_ok (step_close stack res (matchOpen_of_head _ (by decide))
          (matchClose_self k)) _]
      rw [canon]
      rfl
    · rw [processLines_attrs hk hattrs [] ([] ++ ls) [] stack res _,
        foldl_dictInsert_eq (sortAttrs_keys_nodup h4) [] (by simp),
        processLines_childList IH h6 k ([] ++ ls) _ [] stack res _,
        List.singleton_append,
        processLines_cons_ok (step_close stack res (matchOpen_of_head _ (by decide))
          (matchClose_self k)) _]
      rw [canon]
      rfl

/-- Re-parsing the concatenated serializations of well-formed stories yields
their canonical forms, in order. -/
theorem reparse_list {out : List Story} (h : ∀ s ∈ out, s.WF) :
    ∀ res, processLines (toLinesList out) [] res = .ok ([], res ++ canonList out) := by
  induction out with
  | nil => intro res; simp [toLinesList, processLines, canonList]
  | cons s tl ih =>
    intro res
    rw [toLinesList, reparse_toLines s (h s (by simp)) _ [] res]
    simp only [attachResult]
    rw [ih (fun s hs => h s (by simp [hs]))]
    simp [canonList]

/-! ## Structural equivalence -/

mutual
/-- Structural identity of stories in the sense of the round-trip law: same
kind, same lines in the same order, same attribute set (keys and values:
equal as sorted association lists), and structurally identical children in
the same order. -/
inductive StoryEquiv : Story → Story → Prop
  | mk {k : List Char} {ls : List Line} {vs₁ vs₂ : List (List Char × List Char)}
      {cs₁ cs₂ : List Story} :
      sortAttrs vs₁ = sortAttrs vs₂ →
      StoryListEquiv cs₁ cs₂ →
      StoryEquiv ⟨k, ls, vs₁, cs₁⟩ ⟨k, ls, vs₂, cs₂⟩

/-- Pointwise structural identity of two lists of stories. -/
inductive StoryListEquiv : List Story → List Story → Prop
  | nil : StoryListEquiv [] []
  | cons {a b : Story} {as bs : List Story} :
      StoryEquiv a b → StoryListEquiv as bs → StoryListEquiv (a :: as) (b :: bs)
end

theorem equivList_canonList {cs : List Story}
    (h : ∀ c ∈ cs, StoryEquiv c (canon c)) : StoryListEquiv cs (canonList cs) := by
  induction cs with
  | nil => exact StoryListEquiv.nil
  | cons c tl ih =>
    exact StoryListEquiv.cons (h c (by simp)) (ih (fun c hc => h c (by simp [hc])))

theorem equiv_canon : ∀ s : Story, StoryEquiv s (canon s) := by
  refine Story.inductionOn ?_
  intro k ls vs cs IH
  rw [canon]
  exact StoryEquiv.mk (sortAttrs_idem vs).symm (equivList_canonList IH)

theorem from_bufList_ok_shape {L : List Line} {out : List Story}
    (h : from_bufList L = .ok out) :
    ∃ st r rs, processLines L [] [] = .ok (st, r :: rs) ∧ out = r :: rs := by
  rw [from_bufList] at h
  match hp : processLines L [] [] with
  | .error e => rw [hp] at h; cases h
  | .ok (st, []) => rw [hp] at h; cases h
  | .ok (st, r :: rs) =>
    rw [hp] at h
    simp only at h
    cases h
    exact ⟨st, r, rs, rfl, rfl⟩

/-- C1.  For every well-formed story text (one that `from_buf` parses
successfully to `out`), re-parsing the serialized text of the parsed stories
succeeds and yields exactly their canonical forms, which are structurally
identical to the originals at every level: same kind, same attribute set
(keys and values), same lines in the same order, and same children in the
same order and content, recursively. -/
theorem from_buf_serialize_roundtrip {L : List Line} {out : List Story}
    (h : from_bufList L = .ok out) :
    from_bufList (toLinesList out) = .ok (canonList out) ∧
      StoryListEquiv out (canonList out) := by
  have hwf := from_bufList_WF h
  obtain ⟨st, r, rs, hp, hout⟩ := from_bufList_ok_shape h
  constructor
  · rw [from_bufList, reparse_list hwf []]
    rw [hout, canonList]
    rfl
  · exact equivList_canonList (fun c hc => equiv_canon c)

/-- Concrete story text used to witness the round-trip law. -/
def demoLines : List Line :=
  ["(A".toList, "b = 2".toList, "a = 1".toList, "(Log".toList,
   "x = 1".toList, ")Log".toList, "junk".toList, ")A".toList]

/-- The parse of `demoLines`. -/
def demoOut : List Story :=
  [⟨"A".toList, ["junk".toList],
    [("b".toList, "2".toList), ("a".toList, "1".toList)],
    [⟨"Log".toList, ["x = 1".toList], [], []⟩]⟩]

theorem from_buf_serialize_roundtrip_witness :
    from_bufList (toLinesList demoOut) = .ok (canonList demoOut) ∧
      StoryListEquiv demoOut (canonList demoOut) :=
  @from_buf_serialize_roundtrip demoLines demoOut (by rfl)

/-! ## Unterminated blocks (end of input with a non-empty stack) -/

/-- C2 counterexample: parsing `"(A\nfoo = 1\n"` fails with the generic
`ValueError("No stories found in buffer!")`, not with any error naming the
unclosed kind `A` (no `UnterminatedBlock` error exists in the code); and an
input that completes one story before leaving a block unclosed
(`"(A\n)A\n(B\n"`) does not fail at all — the unclosed `B` is silently
discarded. -/
theorem unterminated_counterexample :
    from_bufList ["(A".toList, "foo = 1".toList] = .error .noStories ∧
    from_bufList ["(A".toList, ")A".toList, "(B".toList] =
      .ok [⟨"A".toList, [], [], []⟩] :=
  ⟨rfl, rfl⟩

/-- C2 (amended): when the end of input is reached, any stories still on the
stack are silently discarded and the outcome depends only on the completed
top-level stories: with none completed the parse fails with the generic
`ValueError("No stories found in buffer!")` (regardless of what is on the
stack), and otherwise it succeeds with the completed stories. -/
theorem unterminated_amended {L : List Line} {st res : List Story}
    (h : processLines L [] [] = .ok (st, res)) :
    (res = [] → from_bufList L = .error .noStories) ∧
    (res ≠ [] → from_bufList L = .ok res) := by
  constructor
  · intro hres
    subst hres
    rw [from_bufList, h]
  · intro hres
    rw [from_bufList, h]
    match res, hres with
    | r :: rs, _ => rfl

theorem unterminated_amended_witness :
    from_bufList ["(A".toList, "foo = 1".toList] = .error .noStories :=
  (@unterminated_amended ["(A".toList, "foo = 1".toList]
    [⟨"A".toList, [], [("foo".toList, "1".toList)], []⟩]
    [] (by rfl)).1 rfl

/-! ## Close lines are recognized by prefix, not by exact identifier -/

/-- C3 counterexample: with the node of kind `A` on top of the stack, the
line `")AB"` — whose identifier `AB` is not equal to `A` — is nevertheless
treated as a block-close (the pattern `r"\)A"` matches a prefix of it): the
story is completed with no content. -/
theorem close_prefix_counterexample :
    from_bufList ["(A".toList, ")AB".toList] = .ok [⟨"A".toList, [], [], []⟩] :=
  rfl

/-- C3 (amended): a line that is not a block-open is treated as a block-close
(pops the stack) exactly when it begins with `)` immediately followed by the
top-of-stack node's kind — a prefix match; trailing characters are ignored,
so the close identifier need not equal the kind exactly.  A `)`-line that
does not begin with `)` plus the top's kind falls through to ordinary
content: parsing `"(A\n(B\n)X\n)B\n)A\n"` stores `")X"` in node `B`'s lines. -/
theorem close_prefix_amended (t : Story) (st res : List Story) (l : Line)
    (ho : matchOpen l = none) :
    ((∃ p, processLine (t :: st) res l = .ok p ∧ p.1.length = st.length) ↔
      (')' :: t.kind).isPrefixOf l = true) ∧
    from_bufList ["(A".toList, "(B".toList, ")X".toList, ")B".toList, ")A".toList] =
      .ok [⟨"A".toList, [], [], [⟨"B".toList, [")X".toList], [], []⟩]⟩] := by
  refine ⟨⟨?_, ?_⟩, rfl⟩
  · rintro ⟨p, hp, hlen⟩
    by_cases hcl : matchClose t.kind l = true
    · rwa [matchClose] at hcl
    · exfalso
      rw [processLine.eq_def, ho] at hp
      simp only at hp
      rw [if_neg hcl] at hp
      by_cases hattr : eqCount l = 1 ∧ t.kind ≠ kindLog
      · rw [if_pos hattr] at hp
        cases hp
        simp at hlen
      · rw [if_neg hattr] at hp
        cases hp
        simp at hlen
  · intro hcl
    refine ⟨attachResult t st res,
      step_close st res ho (by rw [matchClose]; exact hcl), ?_⟩
    match st with
    | [] => rfl
    | x :: xs => rfl

theorem close_prefix_amended_witness :
    ((∃ p, processLine
        ([⟨"A".toList, [], [], []⟩] : List Story) ([] : List Story) ")AB".toList = .ok p ∧
        p.1.length = 0) ↔
      (')' :: "A".toList).isPrefixOf ")AB".toList = true) ∧
    from_bufList ["(A".toList, "(B".toList, ")X".toList, ")B".toList, ")A".toList] =
      .ok [⟨"A".toList, [], [], [⟨"B".toList, [")X".toList], [], []⟩]⟩] :=
  close_prefix_amended ⟨"A".toList, [], [], []⟩ [] [] ")AB".toList (by rfl)

/-! ## Exit status is never inspected -/

/-- C5 counterexample: a stage process that exits with the non-zero status 1
while emitting a valid story does not fail: the parsed story is returned,
and no error carrying captured error text is raised (no `StageFailed` exists
in the code — stderr is not even captured). -/
theorem exitstatus_counterexample :
    from_single_command ["(A".toList, ")A".toList] 1 =
      .ok (.single ⟨"A".toList, [], [], []⟩) :=
  rfl

/-- C5 (amended): the invoker ignores the exit status entirely: the result of
a stage invocation is a function of the captured stdout alone, identical for
every exit status, for both `from_single_command` and `apply_command`. -/
theorem exitstatus_ignored (stdout : List Line) (c c' : Int) (s : Story) :
    from_single_command stdout c = from_single_command stdout c' ∧
    apply_command s stdout c = apply_command s stdout c' :=
  ⟨rfl, rfl⟩

/-! ## Non-open lines on an empty stack -/

/-- C6 counterexample: a close-shaped line at depth 0 (empty stack) is not
handled as content — the parse aborts with the untyped `IndexError` raised
by `story_stack[-1]`. -/
theorem emptystack_counterexample :
    from_bufList [")X".toList] = .error .indexError :=
  rfl

/-- C6 (amended): every line that is not a block-open and arrives while the
stack is empty aborts the parse with the untyped `IndexError` from
`story_stack[-1]`; only while a block is in progress is a non-matching
close-shaped line harmless ordinary content of the current node. -/
theorem emptystack_amended (l : Line) (res : List Story) (t : Story)
    (st : List Story) (ho : matchOpen l = none) :
    processLine [] res l = .error .indexError ∧
    (matchClose t.kind l = false → (t.kind = kindLog ∨ eqCount l ≠ 1) →
      processLine (t :: st) res l =
        .ok ({ t with story_lines := t.story_lines ++ [l] } :: st, res)) := by
  constructor
  · rw [processLine.eq_def, ho]
  · intro hcl hcontent
    refine step_content st res ⟨ho, hcl, ?_⟩
    rcases hcontent with h | h
    · exact fun hk => absurd h hk
    · exact fun _ => h

theorem emptystack_amended_witness :
    processLine [] ([] : List Story) ")Log = 1".toList = .error .indexError ∧
    processLine ([⟨"B".toList, [], [], []⟩] : List Story) [] ")X".toList =
      .ok ([⟨"B".toList, [")X".toList], [], []⟩], []) :=
  ⟨(emptystack_amended ")Log = 1".toList [] ⟨"B".toList, [], [], []⟩ []
      (by rfl)).1,
   (emptystack_amended ")X".toList [] ⟨"B".toList, [], [], []⟩ []
      (by rfl)).2 (by rfl) (Or.inr (by decide))⟩

/-! ## Prepending the input story to an expanded result -/

/-- C7: when the captured output of a stage parses to a sequence of stories,
`apply_command` returns that sequence with the input story inserted at
position 0; when it parses to a single story, that story is returned with no
prepend. -/
theorem apply_command_prepend (s : Story) (stdout : List Line) (status : Int)
    (ts : List Story) (t : Story) :
    (from_buf (stdout.map pyRstrip) = .ok (.many ts) →
      apply_command s stdout status = .ok (.many (s :: ts))) ∧
    (from_buf (stdout.map pyRstrip) = .ok (.single t) →
      apply_command s stdout status = .ok (.single t)) := by
  constructor <;> intro h <;> rw [apply_command, h]

theorem apply_command_prepend_witness :
    apply_command ⟨"S".toList, [], [], []⟩
      ["(B".toList, ")B".toList, "(C".toList, ")C".toList] 0 =
      .ok (.many [⟨"S".toList, [], [], []⟩, ⟨"B".toList, [], [], []⟩,
        ⟨"C".toList, [], [], []⟩]) :=
  (apply_command_prepend ⟨"S".toList, [], [], []⟩
    ["(B".toList, ")B".toList, "(C".toList, ")C".toList] 0
    [⟨"B".toList, [], [], []⟩, ⟨"C".toList, [], [], []⟩]
    ⟨"S".toList, [], [], []⟩).1 (by rfl)

/-! ## Expansion at a non-terminal stage -/

/-- A generator command whose process emits one story. -/
def genStage : Stage := fun _ => (["(A".toList, ")A".toList], 0)

/-- A stage whose process emits two stories (an expansion). -/
def expandStage : Stage := fun _ => (["(B".toList, ")B".toList, "(C".toList, ")C".toList], 0)

/-- A further stage, never reached in the counterexample. -/
def finalStage : Stage := fun _ => ([], 0)

/-- C4 counterexample: in the pipeline `[genStage, expandStage, finalStage]`
the non-terminal `expandStage` resolves to multiple stories; execution fails
with the untyped `AttributeError` of calling `.apply_command` on a Python
list — not with any `UnexpectedExpansion` error (none exists in the code). -/
theorem expansion_counterexample :
    (from_command_list [genStage, expandStage, finalStage]).1 =
      .error .attributeError :=
  rfl

/-- C4 (amended): whenever a non-terminal stage (including the initial
generator) resolves to multiple stories, the pipeline fails with the untyped
`AttributeError` (`'list' object has no attribute 'apply_command'`) before
the next stage's process is ever spawned: the failure holds for every
possible next stage `cmd` and remainder `rest`, so no later stage is
invoked. -/
theorem expansion_amended (ss : List Story) (cmd : Stage) (rest : List Stage)
    (c0 : Stage)
    (h : from_single_command (c0 none).1 (c0 none).2 = .ok (.many ss)) :
    pipelineLoop (.many ss) (cmd :: rest) = .error .attributeError ∧
    (from_command_list (c0 :: cmd :: rest)).1 = .error .attributeError := by
  refine ⟨by rw [pipelineLoop], ?_⟩
  rw [from_command_list]
  simp only [h]
  rw [pipelineLoop]

theorem expansion_amended_witness :
    pipelineLoop (.many [⟨"B".toList, [], [], []⟩, ⟨"C".toList, [], [], []⟩])
      [finalStage] = .error .attributeError ∧
    (from_command_list [expandStage, finalStage]).1 = .error .attributeError :=
  expansion_amended [⟨"B".toList, [], [], []⟩, ⟨"C".toList, [], [], []⟩]
    finalStage [] expandStage (by rfl)

/-! ## Log-kind nodes never gain attributes -/

/-- Holds when `t` is `s` itself or a node nested anywhere inside `s`. -/
inductive Subnode : Story → Story → Prop
  | refl (s : Story) : Subnode s s
  | step {s c t : Story} : c ∈ s.story_subobjects → Subnode c t → Subnode s t

theorem Subnode_WF {s t : Story} (hwf : s.WF) (h : Subnode s t) : t.WF := by
  induction h with
  | refl s => exact hwf
  | step hc _ ih =>
    rename_i s c u hsub
    cases hwf with
    | mk h1 h2 h3 h4 h5 h6 => exact ih (h6 c hc)

/-- C8: in every successful parse, every node of kind `"Log"`, at any level,
has an empty attribute dict — no content line was ever promoted; and at the
step level, every content line of a Log-kind node (including a line with
exactly one `=`) is appended verbatim to the node's lines. -/
theorem log_suppression {L : List Line} {out : List Story} {s t : Story}
    (h : from_bufList L = .ok out) (hs : s ∈ out) (hsub : Subnode s t)
    (hkind : t.kind = kindLog) :
    t.story_vals = [] ∧
    ∀ (top : Story) (st res : List Story) (l : Line), top.kind = kindLog →
      matchOpen l = none → matchClose top.kind l = false →
      processLine (top :: st) res l =
        .ok ({ top with story_lines := top.story_lines ++ [l] } :: st, res) := by
  constructor
  · have hwf := Subnode_WF (from_bufList_WF h s hs) hsub
    cases hwf with
    | mk h1 h2 h3 h4 h5 h6 => exact h5 hkind
  · intro top st res l hlog ho hcl
    exact step_content st res ⟨ho, hcl, fun hk => absurd hlog hk⟩

theorem log_suppression_witness :
    (⟨"Log".toList, ["x = 1".toList], [], []⟩ : Story).story_vals = [] ∧
    ∀ (top : Story) (st res : List Story) (l : Line), top.kind = kindLog →
      matchOpen l = none → matchClose top.kind l = false →
      processLine (top :: st) res l =
        .ok ({ top with story_lines := top.story_lines ++ [l] } :: st, res) :=
  @log_suppression ["(Log".toList, "x = 1".toList, ")Log".toList]
    [⟨"Log".toList, ["x = 1".toList], [], []⟩]
    ⟨"Log".toList, ["x = 1".toList], [], []⟩ ⟨"Log".toList, ["x = 1".toList], [], []⟩
    (by rfl) (by simp) (Subnode.refl _) (by rfl)

/-! ## Serialization shape -/

/-- C9: serialization is a pure function of the story (so identical input
gives identical output on every call), and emits exactly, in order: the open
marker `(kind`, every raw line verbatim one per line, every attribute as
`  key = value` sorted ascending by key, the serialization of every child in
original order, and the close marker `)kind`; the sorted attribute block is
independent of the dict's insertion order. -/
theorem serialize_shape (k : List Char) (ls : List Line)
    (vs v₁ v₂ : List (List Char × List Char)) (cs : List Story)
    (hp : v₁.Perm v₂) (hn : (v₁.map Prod.fst).Nodup) :
    Story.toLines ⟨k, ls, vs, cs⟩ =
      ('(' :: k) :: (ls ++ (sortAttrs vs).map attrLine
        ++ (cs.map Story.toLines).flatten ++ [')' :: k]) ∧
    (sortAttrs vs).Sorted attrKeyLE ∧
    sortAttrs v₁ = sortAttrs v₂ :=
  ⟨by rw [Story.toLines, toLinesList_eq], sortAttrs_sorted vs,
    sortAttrs_eq_of_perm hp hn⟩

theorem serialize_shape_witness :
    Story.toLines ⟨"A".toList, [], [("b".toList, "2".toList), ("a".toList, "1".toList)], []⟩ =
      ('(' :: "A".toList) :: ([] ++
        (sortAttrs [("b".toList, "2".toList), ("a".toList, "1".toList)]).map attrLine
        ++ (([] : List Story).map Story.toLines).flatten ++ [')' :: "A".toList]) ∧
    (sortAttrs [("b".toList, "2".toList), ("a".toList, "1".toList)]).Sorted attrKeyLE ∧
    sortAttrs [("b".toList, "2".toList), ("a".toList, "1".toList)] =
      sortAttrs [("a".toList, "1".toList), ("b".toList, "2".toList)] :=
  serialize_shape "A".toList [] [("b".toList, "2".toList), ("a".toList, "1".toList)]
    [("b".toList, "2".toList), ("a".toList, "1".toList)]
    [("a".toList, "1".toList), ("b".toList, "2".toList)] []
    (List.Perm.swap ("a".toList, "1".toList) ("b".toList, "2".toList) [])
    (by decide)

/-! ## The caller's command list is mutated -/

/-- C10: `from_command_list` removes the first (generator) command from the
caller's list via `command_list.pop(0)`: after the call the caller's list
holds exactly the remaining commands, unchanged and in their original
order. -/
theorem from_command_list_mutates (c : Stage) (rest : List Stage) :
    (from_command_list (c :: rest)).2 = rest := by
  rw [from_command_list]
  cases h : from_single_command (c none).1 (c none).2 <;> simp [h]

end Pystarlab
